import Mathlib

/-!
Verification development for the `peon` prefix-compressed entry-stream codec.

Bytes are modelled as natural numbers (`List Nat`); every arithmetic step that
wraps in the source (`u16`/`u64` casts, shifts) carries an explicit `% 2^w`.
Readers over an in-memory byte source (`std::io::Cursor`) are modelled as a
`List Nat` that is consumed from the front; `read_exact n` succeeds exactly
when at least `n` bytes remain.

Recursions whose Rust counterparts terminate by consuming input are written
with an explicit fuel argument so that every definition reduces in the kernel;
each wrapper passes fuel that provably dominates the number of iterations.
-/

/-- Longest common prefix of two byte lists: the plain byte-wise loop
`iter::zip(xs, ys).take_while(|(x, y)| x == y).count()` from
`common_prefix_chunked` in `src/encoding.rs`. -/
def lcp : List Nat → List Nat → Nat
  | x :: xs, y :: ys => if x = y then lcp xs ys + 1 else 0
  | _, _ => 0

/-- Number of leading equal 128-byte chunks of `xs` and `ys`:
`iter::zip(xs.chunks_exact(128), ys.chunks_exact(128)).take_while(eq).count()`
from `common_prefix_chunked::<128>` in `src/encoding.rs`.  The fuel dominates
the iteration count because each step drops 128 elements. -/
def eqChunkCountF : Nat → List Nat → List Nat → Nat
  | 0, _, _ => 0
  | fuel + 1, xs, ys =>
    if 128 ≤ xs.length ∧ 128 ≤ ys.length ∧ xs.take 128 = ys.take 128 then
      eqChunkCountF fuel (xs.drop 128) (ys.drop 128) + 1
    else 0

/-- `common_prefix_chunked::<128>` of `src/encoding.rs`: the chunked
(SIMD-friendly) longest-common-prefix computation used by the encoder. -/
def commonPrefixLen (xs ys : List Nat) : Nat :=
  let off := 128 * eqChunkCountF xs.length xs ys
  off + lcp (xs.drop off) (ys.drop off)

/-- Big-endian bytes of a value cast to `u16` (`(n as u16).to_be_bytes()`). -/
def be16 (n : Nat) : List Nat :=
  [n % 65536 / 256, n % 256]

/-- One `PrefixEncoder::write_next(key, value)` call from `src/encoding.rs`:
returns the bytes written to the sink and the new `last_key` buffer.  The
buffer update mirrors `last_key.drain(prefix_len..)` followed by
`last_key.extend_from_slice(diff)`. -/
def encStep (lastKey key value : List Nat) : List Nat × List Nat :=
  let p := commonPrefixLen lastKey key
  (be16 key.length ++ be16 value.length ++ be16 p ++ key.drop p ++ value,
   lastKey.take p ++ key.drop p)

/-- Encoding a sequence of `(key, value)` records by repeated
`PrefixEncoder::write_next`, threading the `last_key` state. -/
def encList (lastKey : List Nat) : List (List Nat × List Nat) → List Nat
  | [] => []
  | (k, v) :: rest =>
    (encStep lastKey k v).1 ++ encList (encStep lastKey k v).2 rest

/-- A fresh `PrefixEncoder` starts with an empty `last_key`
(`PrefixEncoder::new`). -/
def encodeAll (entries : List (List Nat × List Nat)) : List Nat :=
  encList [] entries

/-- Decoder outcomes other than records.  `ioEof` models a propagated
`std::io::Error` of kind `UnexpectedEof` from a failed `read_exact` inside a
record body or an extension skip; `unsupported` models the
`ErrorKind::Unsupported` error for mandatory extension entries; `panicked`
models a Rust panic (out-of-bounds slice `last_key[prefix_len..]` when
`prefix_len > key_len`). -/
inductive DecErr where
  | ioEof : DecErr
  | unsupported : DecErr
  | panicked : DecErr
deriving DecidableEq

/-- The constant `MAX_PATH_LEN` from `src/encoding.rs`, verbatim: the source
writes the hexadecimal literal `0x0111_1111_1111_1111` although its comment
says the maximum path length is 32 KiB. -/
def MAX_PATH_LEN : Nat := 0x0111111111111111

/-- The extension bit `EXT_ENTRY = 0b1000_0000` from `src/encoding.rs`. -/
def EXT_ENTRY : Nat := 0x80

/-- `PrefixDecoder::read_next` from `src/encoding.rs`, with fuel for the
tail-recursion that skips optional extension entries (each recursion consumes
at least the 6 header bytes, so `input.length + 1` fuel always suffices).

Returns `.ok none` on end of stream: the source maps any `UnexpectedEof`
from the 6-byte header read — including a partial header — to `Ok(None)`.
Otherwise returns the `(key, value)` record, the new `last_key` buffer
(the decoded key: the source's `last_key` after `resize` and `read_exact`
into `last_key[prefix_len..]`), and the remaining input.  The returned
value equals the decoder's `last_value` buffer, which `read_next` always
overwrites in full. -/
def readNextF : Nat → List Nat → List Nat →
    Except DecErr (Option ((List Nat × List Nat) × List Nat × List Nat))
  | 0, _, _ => .error .ioEof
  | fuel + 1, lastKey, b0 :: b1 :: b2 :: b3 :: b4 :: b5 :: rest =>
    let keyLen := b0 * 256 + b1
    let valueLen := b2 * 256 + b3
    let prefLen := b4 * 256 + b5
    if b0 &&& EXT_ENTRY ≠ 0 then
      if b4 &&& EXT_ENTRY ≠ 0 then
        let skipLen := (keyLen &&& MAX_PATH_LEN) + valueLen
        if skipLen ≤ rest.length then
          readNextF fuel lastKey (rest.drop skipLen)
        else .error .ioEof
      else .error .unsupported
    else
      if keyLen < prefLen then .error .panicked
      else
        let base := lastKey.take keyLen ++ List.replicate (keyLen - lastKey.length) 0
        if keyLen - prefLen ≤ rest.length then
          let key := base.take prefLen ++ rest.take (keyLen - prefLen)
          let rest2 := rest.drop (keyLen - prefLen)
          if valueLen ≤ rest2.length then
            .ok (some ((key, rest2.take valueLen), key, rest2.drop valueLen))
          else .error .ioEof
        else .error .ioEof
  | _ + 1, _, _ => .ok none

/-- `PrefixDecoder::read_next` with adequate fuel. -/
def readNext (lastKey input : List Nat) :
    Except DecErr (Option ((List Nat × List Nat) × List Nat × List Nat)) :=
  readNextF (input.length + 1) lastKey input

/-- Draining the decoder with repeated `read_next` until `None`, collecting
the records in order; fuel dominates the record count because every record
consumes at least 6 bytes. -/
def decodeLoopF : Nat → List Nat → List Nat →
    Except DecErr (List (List Nat × List Nat))
  | 0, _, _ => .error .ioEof
  | fuel + 1, lastKey, input =>
    match readNext lastKey input with
    | .error e => .error e
    | .ok none => .ok []
    | .ok (some ((k, v), lk2, rest)) =>
      match decodeLoopF fuel lk2 rest with
      | .error e => .error e
      | .ok entries => .ok ((k, v) :: entries)

/-- A fresh `PrefixDecoder` (empty `last_key`) drained to end of stream. -/
def decodeAll (input : List Nat) : Except DecErr (List (List Nat × List Nat)) :=
  decodeLoopF (input.length + 1) [] input

/-- `PathSegment` from `src/path.rs`.  Keys are UTF-8 byte strings, indices
are `u64` values; `byteChunk` mirrors the `ByteChunk(u64, u16)` variant. -/
inductive PathSegment where
  | key : List Nat → PathSegment
  | index : Nat → PathSegment
  | byteChunk : Nat → Nat → PathSegment
deriving DecidableEq

/-- `PathError` from `src/path.rs`.  `invalidKey` corresponds to
`InvalidKey(Utf8Error)` (the payload is dropped); `unimplementedChunk` marks
the `TAG_CHUNK` arm of `PathIter::next`, which in the source is an empty
block — chunk decoding is not implemented there. -/
inductive PathError where
  | unknownTag : Nat → PathError
  | eof : PathError
  | invalidKey : PathError
  | unimplementedChunk : PathError
deriving DecidableEq

/-- `TAG_KEY` from `src/path.rs`. -/
def TAG_KEY : Nat := 0

/-- `TAG_CHUNK` from `src/path.rs`. -/
def TAG_CHUNK : Nat := 2

/-- `MAX_INDEX_BYTES` from `src/path.rs`. -/
def MAX_INDEX_BYTES : Nat := 8

/-- The byte-length selector shared by `size_hint` in `src/lib.rs` and the
`match` inside `write_len_prefixed_varint` in `src/path.rs`. -/
def sizeHint (n : Nat) : Nat :=
  if n = 0 then 0
  else if n ≤ 255 then 1
  else if n ≤ 65535 then 2
  else if n ≤ 4294967295 then 4
  else 8

/-- The last `L` bytes of `value.to_be_bytes()` (big-endian, most significant
first); digits beyond `256^L` are discarded exactly as the slice discards
them. -/
def beBytes : Nat → Nat → List Nat
  | 0, _ => []
  | l + 1, n => n / 256 ^ l % 256 :: beBytes l n

/-- `write_len_prefixed_varint` from `src/path.rs`: `0` is encoded as the
single byte `0`, otherwise a one-byte length `L ∈ {1,2,4,8}` followed by the
`L` big-endian bytes of the value. -/
def writeLenPrefixedVarint (n : Nat) : List Nat :=
  if n = 0 then [0] else sizeHint n :: beBytes (sizeHint n) n

/-- Bytes appended by one `push_key` / `push_index` / `push_chunk` call of
`PathBuf` in `src/path.rs` (`push_chunk` writes the tag, the start varint and
the chunk length as a big-endian `u16`). -/
def encSeg : PathSegment → List Nat
  | .key s => TAG_KEY :: s
  | .index n => writeLenPrefixedVarint n
  | .byteChunk start len => TAG_CHUNK :: (writeLenPrefixedVarint start ++ be16 len)

/-- The encoded buffer of a `PathBuf` built by pushing the given segments in
order (`PathBuf::from_iter`). -/
def encPath : List PathSegment → List Nat
  | [] => []
  | s :: rest => encSeg s ++ encPath rest

/-- Whether a continuation byte is well-formed (`0x80..=0xBF`). -/
def utf8Cont (b : Nat) : Bool :=
  decide (0x80 ≤ b) && decide (b ≤ 0xBF)

/-- UTF-8 validity of a byte sequence, as checked by `std::str::from_utf8`
in `PathIter::consume_key`. -/
def validUtf8 : List Nat → Bool
  | [] => true
  | b :: rest =>
    if b ≤ 0x7F then validUtf8 rest
    else if 0xC2 ≤ b ∧ b ≤ 0xDF then
      match rest with
      | c1 :: r => utf8Cont c1 && validUtf8 r
      | _ => false
    else if b = 0xE0 then
      match rest with
      | c1 :: c2 :: r =>
        decide (0xA0 ≤ c1) && decide (c1 ≤ 0xBF) && utf8Cont c2 && validUtf8 r
      | _ => false
    else if (0xE1 ≤ b ∧ b ≤ 0xEC) ∨ (0xEE ≤ b ∧ b ≤ 0xEF) then
      match rest with
      | c1 :: c2 :: r => utf8Cont c1 && utf8Cont c2 && validUtf8 r
      | _ => false
    else if b = 0xED then
      match rest with
      | c1 :: c2 :: r =>
        decide (0x80 ≤ c1) && decide (c1 ≤ 0x9F) && utf8Cont c2 && validUtf8 r
      | _ => false
    else if b = 0xF0 then
      match rest with
      | c1 :: c2 :: c3 :: r =>
        decide (0x90 ≤ c1) && decide (c1 ≤ 0xBF) && utf8Cont c2 && utf8Cont c3 &&
          validUtf8 r
      | _ => false
    else if 0xF1 ≤ b ∧ b ≤ 0xF3 then
      match rest with
      | c1 :: c2 :: c3 :: r =>
        utf8Cont c1 && utf8Cont c2 && utf8Cont c3 && validUtf8 r
      | _ => false
    else if b = 0xF4 then
      match rest with
      | c1 :: c2 :: c3 :: r =>
        decide (0x80 ≤ c1) && decide (c1 ≤ 0x8F) && utf8Cont c2 && utf8Cont c3 &&
          validUtf8 r
      | _ => false
    else false

/-- The scanning loop of `PathIter::consume_key`: advance the cursor while
the current byte is greater than `MAX_INDEX_BYTES`.  Fuel
`buf.length - pos` dominates the iteration count. -/
def consumeKeyF : Nat → List Nat → Nat → Nat
  | 0, _, pos => pos
  | fuel + 1, buf, pos =>
    if pos < buf.length ∧ MAX_INDEX_BYTES < buf.getD pos 0 then
      consumeKeyF fuel buf (pos + 1)
    else pos

/-- End position of the key starting at `pos` (`PathIter::consume_key`). -/
def consumeKeyEnd (buf : List Nat) (pos : Nat) : Nat :=
  consumeKeyF (buf.length - pos) buf pos

/-- One `PathIter::next` step of `src/path.rs` at cursor `pos`: `none` at end
of buffer, otherwise the yielded `Result<PathSegment>` and the new cursor.
The `TAG_CHUNK` arm is an empty block in the source (chunk decoding is
unimplemented); it is modelled by the `unimplementedChunk` error.
`consume_index` fails with `Eof` when `pos + byte_len >= buf.len()` — the
source's comparison, reproduced verbatim. -/
def iterNext (buf : List Nat) (pos : Nat) :
    Option (Except PathError PathSegment × Nat) :=
  if buf.length ≤ pos then none
  else
    let tag := buf.getD pos 0
    if tag = TAG_KEY then
      let stop := consumeKeyEnd buf (pos + 1)
      let kb := (buf.drop (pos + 1)).take (stop - (pos + 1))
      if validUtf8 kb then some (.ok (.key kb), stop)
      else some (.error .invalidKey, stop)
    else if tag = TAG_CHUNK then some (.error .unimplementedChunk, pos + 1)
    else if tag ≤ MAX_INDEX_BYTES then
      if buf.length ≤ pos + 1 + tag then some (.error .eof, pos + 1)
      else
        let v := ((buf.drop (pos + 1)).take tag).foldl (fun a b => a * 256 + b) 0
        some (.ok (.index v), pos + 1 + tag)
    else some (.error (.unknownTag tag), pos + 1)

/-- Collect all segments of a path, stopping at the first error — the loop
every caller of `PathIter` runs (`JsonPath::is_match`, `Display`, the
merger).  Fuel dominates the iteration count because the cursor strictly
advances. -/
def collectSegsGo : Nat → List Nat → Nat → Except PathError (List PathSegment)
  | 0, _, _ => .error .eof
  | fuel + 1, buf, pos =>
    match iterNext buf pos with
    | none => .ok []
    | some (.error e, _) => .error e
    | some (.ok s, pos2) =>
      match collectSegsGo fuel buf pos2 with
      | .error e => .error e
      | .ok segs => .ok (s :: segs)

/-- All segments of an encoded path, or its first decoding error. -/
def collectSegs (buf : List Nat) : Except PathError (List PathSegment) :=
  collectSegsGo (buf.length + 1) buf 0

/-- Three-way comparison of naturals (byte comparison). -/
def natCmp (x y : Nat) : Ordering :=
  if x < y then .lt else if x = y then .eq else .gt

/-- Byte-lexicographic comparison of byte strings: the `Ord` instance that
`Path` derives on its underlying byte buffer (Rust slice ordering). -/
def bytesOrd : List Nat → List Nat → Ordering
  | [], [] => .eq
  | [], _ :: _ => .lt
  | _ :: _, [] => .gt
  | x :: xs, y :: ys =>
    match natCmp x y with
    | .eq => bytesOrd xs ys
    | o => o

/-- Well-formedness of a segment per the data model: keys are non-empty with
no byte `≤ 0x0F`, indices fit in `u64`; chunk segments are outside the
ordering claim's scope. -/
def wfSegB : PathSegment → Bool
  | .key k => !k.isEmpty && k.all (fun b => decide (0x0F < b))
  | .index n => decide (n < 2 ^ 64)
  | .byteChunk _ _ => false

/-- Well-formedness of a whole path. -/
def wfPathB (p : List PathSegment) : Bool :=
  p.all wfSegB

/-- Document traversal order on single segments as the claim states it:
keys in byte order, indices in numeric order, and every `Key` before every
`Index` (any index value, including `0`). -/
def claimedSegOrd : PathSegment → PathSegment → Ordering
  | .key k, .key k2 => bytesOrd k k2
  | .index m, .index n => natCmp m n
  | .key _, .index _ => .lt
  | .index _, .key _ => .gt
  | .byteChunk _ _, .byteChunk _ _ => .eq
  | .byteChunk _ _, _ => .gt
  | _, .byteChunk _ _ => .lt

/-- Traversal order on single segments as the code actually realizes it:
`Index 0` (encoded as the bare byte `0`, the same byte as the key tag,
followed by nothing) sorts before every key, while every positive index
sorts after every key. -/
def amendedSegOrd : PathSegment → PathSegment → Ordering
  | .key k, .key k2 => bytesOrd k k2
  | .index m, .index n => natCmp m n
  | .key _, .index n => if n = 0 then .gt else .lt
  | .index m, .key _ => if m = 0 then .lt else .gt
  | .byteChunk _ _, .byteChunk _ _ => .eq
  | .byteChunk _ _, _ => .gt
  | _, .byteChunk _ _ => .lt

/-- Lexicographic lifting of a segment ordering to paths: a strict prefix
(parent) precedes any extension (descendant). -/
def pathOrdWith (f : PathSegment → PathSegment → Ordering) :
    List PathSegment → List PathSegment → Ordering
  | [], [] => .eq
  | [], _ :: _ => .lt
  | _ :: _, [] => .gt
  | s :: p, t :: q =>
    match f s t with
    | .eq => pathOrdWith f p q
    | o => o

/-- Document traversal order on paths exactly as the claim words it. -/
def claimedPathOrd : List PathSegment → List PathSegment → Ordering :=
  pathOrdWith claimedSegOrd

/-- Document traversal order on paths as the encoding actually realizes it. -/
def amendedPathOrd : List PathSegment → List PathSegment → Ordering :=
  pathOrdWith amendedSegOrd

/-- `JsonPathToken` from `src/json_path/mod.rs`.  Member names are UTF-8
byte strings; `index` carries an `i64`; `slice` carries `(from, to, step)`
as `u64` values. -/
inductive JsonPathToken where
  | root : JsonPathToken
  | current : JsonPathToken
  | member : List Nat → JsonPathToken
  | index : Int → JsonPathToken
  | wildcard : JsonPathToken
  | recursiveDescend : JsonPathToken
  | slice : Nat → Nat → Nat → JsonPathToken
  | memberUnion : List (List Nat) → JsonPathToken
  | indexUnion : List Int → JsonPathToken
deriving DecidableEq

/-- The cast `u64 as i64` used when comparing a path index with a query
index (`*index2 as i64` in `src/json_path/filter.rs`). -/
def toI64 (n : Nat) : Int :=
  if n % 2 ^ 64 < 2 ^ 63 then (n % 2 ^ 64 : Int) else (n % 2 ^ 64 : Int) - 2 ^ 64

/-- `match_path_inner` from `src/json_path/filter.rs`.  The `while` loop over
`tokens[token_index..]` is the structural recursion over the token list; the
path stays whole (with cursor `pos`) because `Root` resets the cursor.  In
the `RecursiveDescend` arm the source tries the remaining tokens at every
cursor position `pos..path.len()` and, when none matches, falls through to
processing the remaining tokens at the unchanged cursor. -/
def matchInner : List JsonPathToken → List PathSegment → Nat → Bool
  | [], _, _ => true
  | .root :: ts, path, _ => matchInner ts path 0
  | .current :: ts, path, pos => matchInner ts path pos
  | .member k :: ts, path, pos =>
    match path.get? pos with
    | some (.key k2) => decide (k = k2) && matchInner ts path (pos + 1)
    | _ => false
  | .index i :: ts, path, pos =>
    match path.get? pos with
    | some (.index n) => decide (i = toI64 n) && matchInner ts path (pos + 1)
    | _ => false
  | .wildcard :: ts, path, pos => matchInner ts path (pos + 1)
  | .recursiveDescend :: ts, path, pos =>
    ((List.range' pos (path.length - pos)).any fun j => matchInner ts path j) ||
      matchInner ts path pos
  | .slice a b _ :: ts, path, pos =>
    match path.get? pos with
    | some (.index n) =>
      decide (a ≤ n) && decide (n < b) && matchInner ts path (pos + 1)
    | _ => false
  | .memberUnion ks :: ts, path, pos =>
    match path.get? pos with
    | some (.key k2) => ks.contains k2 && matchInner ts path (pos + 1)
    | _ => false
  | .indexUnion is2 :: ts, path, pos =>
    match path.get? pos with
    | some (.index n) => is2.contains (toI64 n) && matchInner ts path (pos + 1)
    | _ => false

/-- The document model of `serde_json::Value` as used by the flattener and
merger (`src/json/flatten.rs`, `src/json/merge.rs`): objects are key-sorted
association lists (serde's map is a `BTreeMap`, and Rust `String` order is
byte order), floats are represented by their IEEE-754 bit pattern, strings
by their UTF-8 bytes, integers by `i64` values. -/
inductive J where
  | null : J
  | bool : Bool → J
  | int : Int → J
  | float : Nat → J
  | str : List Nat → J
  | arr : List J → J
  | obj : List (List Nat × J) → J

/-- `TAG_BOOL_FALSE` from `src/json/mod.rs`. -/
def TAG_BOOL_FALSE : Nat := 0x80

/-- `TAG_BOOL_TRUE` from `src/json/mod.rs`. -/
def TAG_BOOL_TRUE : Nat := 0x81

/-- `TAG_STRING` from `src/json/mod.rs`. -/
def TAG_STRING : Nat := 0x82

/-- `TAG_FLOAT` from `src/json/mod.rs`. -/
def TAG_FLOAT : Nat := 0x83

/-- `TAG_NULL` from `src/json/mod.rs`. -/
def TAG_NULL : Nat := 0x84

/-- `TAG_INTEGER` from `src/json/mod.rs`. -/
def TAG_INTEGER : Nat := 0x00

/-- The zig-zag step of the flattener's integer branch
(`src/json/flatten.rs`): `if v < 0 { (v << 1) as u64 - 1 } else
{ (v as u64) << 1 }`, with `u64` wrap-around made explicit.  (Note: this is
not the standard zig-zag `(n << 1) XOR (n >> 63)`.) -/
def zigzagEnc (v : Int) : Nat :=
  if v < 0 then (((2 * v) % (2 ^ 64 : Int)).toNat + 2 ^ 64 - 1) % 2 ^ 64
  else ((2 * v) % (2 ^ 64 : Int)).toNat

/-- The claim's zig-zag formula `(n << 1) XOR (n >> 63)` on the `u64` bit
pattern, written per the claim's words for comparison: for `n < 0` the
arithmetic shift `n >> 63` is all ones, so the XOR is the complement of
`(n << 1) mod 2^64`. -/
def specZigzag (v : Int) : Nat :=
  if v < 0 then 2 ^ 64 - 1 - ((2 * v) % (2 ^ 64 : Int)).toNat
  else ((2 * v) % (2 ^ 64 : Int)).toNat

/-- The integer value bytes emitted by `flatten_inner`
(`src/json/flatten.rs`): tag byte `TAG_INTEGER | byte_len` followed by the
trailing `byte_len` big-endian bytes of the zig-zag value. -/
def intEncode (v : Int) : List Nat :=
  let z := zigzagEnc v
  (TAG_INTEGER ||| sizeHint z) :: beBytes (sizeHint z) z

/-- Little-endian 8-byte encoding (`f64::to_le_bytes` of a bit pattern). -/
def leBytes8 (bits : Nat) : List Nat :=
  (beBytes 8 bits).reverse

/-- Big-endian value of a byte list (`u64::from_be_bytes`-style fold). -/
def beVal (bytes : List Nat) : Nat :=
  bytes.foldl (fun a b => a * 256 + b) 0

/-- The integer decoding branch of `Merge::merge_into`
(`src/json/merge.rs`): payload length from the tag's low nibble, the
payload bytes folded **in reverse order** (`bytes.iter().rev()`, i.e.
little-endian) with `u64` wrap-around, then the zig-zag decode
`if z & 1 == 0 { (z >> 1) as i64 } else { !((z >> 1) as i64) }`. -/
def intDecode (value : List Nat) : Int :=
  match value with
  | [] => 0
  | tag :: payload =>
    let len := tag &&& 0x0F
    let z := ((payload.take len).reverse).foldl (fun a b => (a * 256 + b) % 2 ^ 64) 0
    if z % 2 = 0 then toI64 (z / 2) else -(toI64 (z / 2)) - 1

/-- Continuation bytes of the chunked-string branch of `flatten_inner`.
Modelled from the spec: the source calls `path_buf.push_continued()`, which
does not exist in `src/path.rs`; §4.1 of the spec assigns the continuation
marker the tag byte `0x0F`.  The loop advances by `chunk_len =
min(chunk_size - path_len - 6, bytes.len() - index)` (the subtraction is the
source's `usize` subtraction; here it saturates at `0`, in which case the
source loops forever and the model stops when the fuel runs out).  No
theorem below evaluates this branch: claim C5 restricts strings to the chunk
size. -/
def chunkLoopF : Nat → Nat → List Nat → List Nat → Nat →
    List (List Nat × List Nat)
  | 0, _, _, _, _ => []
  | fuel + 1, chunkSize, pathB, bytes, index =>
    if index < bytes.length then
      let pb := pathB ++ writeLenPrefixedVarint index ++ [0x0F]
      let chunkLen := min (chunkSize - pb.length - 6) (bytes.length - index)
      (pb, (bytes.drop index).take chunkLen) ::
        chunkLoopF fuel chunkSize pathB bytes (index + chunkLen)
    else []

mutual

/-- `flatten_inner` from `src/json/flatten.rs`: depth-first emission of
`(path bytes, value bytes)` records; arrays push `Index(i)`, objects push
`Key(k)` (in the map's sorted key order), scalars emit their tagged value
bytes; floats are written little-endian (`v.to_le_bytes()`). -/
def flattenInner (chunkSize : Nat) (doc : J) (pathB : List Nat) :
    List (List Nat × List Nat) :=
  match doc with
  | .null => [(pathB, [TAG_NULL])]
  | .bool b => [(pathB, [if b then TAG_BOOL_TRUE else TAG_BOOL_FALSE])]
  | .int v => [(pathB, intEncode v)]
  | .float bits => [(pathB, TAG_FLOAT :: leBytes8 bits)]
  | .str bytes =>
    if bytes.length ≤ chunkSize then [(pathB, TAG_STRING :: bytes)]
    else chunkLoopF (bytes.length + 1) chunkSize pathB bytes 0
  | .arr items => flattenArr chunkSize items pathB 0
  | .obj entries => flattenObj chunkSize entries pathB

/-- The array loop of `flatten_inner`: recurse with `Index(i)` pushed. -/
def flattenArr (chunkSize : Nat) (items : List J) (pathB : List Nat)
    (i : Nat) : List (List Nat × List Nat) :=
  match items with
  | [] => []
  | d :: rest =>
    flattenInner chunkSize d (pathB ++ writeLenPrefixedVarint i) ++
      flattenArr chunkSize rest pathB (i + 1)

/-- The object loop of `flatten_inner`: recurse with `Key(k)` pushed. -/
def flattenObj (chunkSize : Nat) (entries : List (List Nat × J))
    (pathB : List Nat) : List (List Nat × List Nat) :=
  match entries with
  | [] => []
  | (k, d) :: rest =>
    flattenInner chunkSize d (pathB ++ (TAG_KEY :: k)) ++
      flattenObj chunkSize rest pathB

end

/-- `Flatten::flatten` for a document: start from the empty path. -/
def flattenDoc (chunkSize : Nat) (doc : J) : List (List Nat × List Nat) :=
  flattenInner chunkSize doc []

/-- Sorted-map insertion (the `BTreeMap` entry of serde's object). -/
def objInsert (entries : List (List Nat × J)) (k : List Nat) (v : J) :
    List (List Nat × J) :=
  match entries with
  | [] => [(k, v)]
  | (k2, v2) :: rest =>
    match bytesOrd k k2 with
    | .lt => (k, v) :: (k2, v2) :: rest
    | .eq => (k, v) :: rest
    | .gt => (k2, v2) :: objInsert rest k v

/-- Map lookup defaulting to `Null` (`entry(key).or_insert(Null)`). -/
def objGetD (entries : List (List Nat × J)) (k : List Nat) : J :=
  match entries with
  | [] => .null
  | (k2, v2) :: rest => if k = k2 then v2 else objGetD rest k

/-- The leaf update of `Merge::merge_into` (`src/json/merge.rs`) once `touch`
has walked the path: `off` is the final offset (already zeroed when no
continuation segment was seen).  With `off > 0` the chunk-splice branch
runs: it compares `off` with the **incoming value's** length (the source
compares `offset.cmp(&string_value.len())`), replaces the tail
(`replace_range(offset..)`), appends, or panics; a non-string target is left
unchanged (`continue`).  With `off = 0` the value's first byte is
dispatched; every tag that is none of the five named constants falls into
the integer branch (the source's trailing `tag =>` arm binds all remaining
tags, making its `_ =>` arm unreachable).  `from_utf8_lossy` is modelled as
the identity on the payload bytes (every theorem below evaluates only
valid-UTF-8 payloads); `f64::from_be_bytes` reads the payload big-endian,
and panics (`try_into().unwrap()`) unless it is exactly 8 bytes. -/
def setTarget (j : J) (off : Nat) (value : List Nat) : Option J :=
  if 0 < off then
    match j with
    | .str s =>
      if validUtf8 value then
        match natCmp off value.length with
        | .lt => some (.str (s.take off ++ value))
        | .eq => some (.str (s ++ value))
        | .gt => none
      else none
    | _ => some j
  else
    match value with
    | [] => none
    | tag :: payload =>
      if tag = TAG_NULL then some .null
      else if tag = TAG_STRING then some (.str payload)
      else if tag = TAG_FLOAT then
        if payload.length = 8 then some (.float (beVal payload)) else none
      else if tag = TAG_BOOL_TRUE then some (.bool true)
      else if tag = TAG_BOOL_FALSE then some (.bool false)
      else
        if payload.length < tag &&& 0x0F then none
        else some (.int (intDecode (tag :: payload)))

/-- The `touch` walk of `src/json/merge.rs` fused with the leaf update:
`Key` materializes an object (`*current = json!({})` when the target is not
one) and descends into the entry; `Index` materializes an array only when
the index is `0` (otherwise a non-array target makes `as_array_mut().unwrap()`
panic, modelled as `none`), null-pads up to the index, and descends;
a chunk segment only sets the continuation flag (the source's `Cont` arm
compares `*current == String::new()` — a no-op — and does not move
`current`; path decoding never actually yields a chunk segment).  `off`
tracks the last index seen; at the leaf it is zeroed unless a continuation
segment occurred (`if !cont { offset = 0; }`). -/
def touchSet (j : J) (segs : List PathSegment) (off : Nat) (cont : Bool)
    (value : List Nat) : Option J :=
  match segs with
  | [] => setTarget j (if cont then off else 0) value
  | .key k :: rest =>
    let entries := match j with | .obj es => es | _ => []
    match touchSet (objGetD entries k) rest off cont value with
    | none => none
    | some child => some (.obj (objInsert entries k child))
  | .index i :: rest =>
    match j with
    | .arr items =>
      let items2 := if items.length ≤ i then
        items ++ List.replicate (i + 1 - items.length) J.null else items
      match touchSet (items2.getD i .null) rest i cont value with
      | none => none
      | some child => some (.arr (items2.set i child))
    | _ =>
      if i = 0 then
        match touchSet .null rest i cont value with
        | none => none
        | some child => some (.arr [child])
      else none
  | .byteChunk _ _ :: rest => touchSet j rest off true value

/-- `Merge::merge_into` over a list of `(path bytes, value bytes)` entries:
each path is decoded by the path iterator (`segment.unwrap()` panics on a
decoding error, modelled as `none`), then merged into the accumulator; the
accumulator starts from `serde_json::Value::default()`, which is `Null`. -/
def mergeLoop (acc : J) : List (List Nat × List Nat) → Option J
  | [] => some acc
  | (p, v) :: rest =>
    match collectSegs p with
    | .error _ => none
    | .ok segs =>
      match touchSet acc segs 0 false v with
      | none => none
      | some acc2 => mergeLoop acc2 rest

/-- `Merge::merge`: fold all entries into a fresh `Null` document. -/
def mergeAll (entries : List (List Nat × List Nat)) : Option J :=
  mergeLoop .null entries

theorem lcp_le_left : ∀ xs ys : List Nat, lcp xs ys ≤ xs.length := by
  intro xs
  induction xs with
  | nil => intro ys; cases ys <;> simp [lcp]
  | cons x xs ih =>
    intro ys
    cases ys with
    | nil => simp [lcp]
    | cons y ys =>
      by_cases h : x = y <;> simp [lcp, h]
      exact ih ys

theorem lcp_le_right : ∀ xs ys : List Nat, lcp xs ys ≤ ys.length := by
  intro xs
  induction xs with
  | nil => intro ys; cases ys <;> simp [lcp]
  | cons x xs ih =>
    intro ys
    cases ys with
    | nil => simp [lcp]
    | cons y ys =>
      by_cases h : x = y <;> simp [lcp, h]
      exact ih ys

theorem take_lcp_eq : ∀ xs ys : List Nat,
    xs.take (lcp xs ys) = ys.take (lcp xs ys) := by
  intro xs
  induction xs with
  | nil => intro ys; cases ys <;> simp [lcp]
  | cons x xs ih =>
    intro ys
    cases ys with
    | nil => simp [lcp]
    | cons y ys =>
      by_cases h : x = y <;> simp [lcp, h]
      exact ih ys

theorem lcp_max : ∀ (xs ys : List Nat) (n : Nat), n ≤ xs.length →
    xs.take n = ys.take n → n ≤ lcp xs ys := by
  intro xs
  induction xs with
  | nil => intro ys n hn _; simp at hn; omega
  | cons x xs ih =>
    intro ys n hn ht
    cases n with
    | zero => omega
    | succ m =>
      cases ys with
      | nil => simp at ht
      | cons y ys =>
        simp [List.take_succ_cons] at ht
        simp [lcp, ht.1]
        have := ih ys m (by simpa using hn) ht.2
        omega

theorem lcp_append_same : ∀ (c a b : List Nat),
    lcp (c ++ a) (c ++ b) = c.length + lcp a b := by
  intro c
  induction c with
  | nil => simp
  | cons x c ih => intro a b; simp [lcp, ih]; omega

theorem eqChunk_lcp : ∀ (fuel : Nat) (xs ys : List Nat), xs.length ≤ fuel →
    128 * eqChunkCountF fuel xs ys +
      lcp (xs.drop (128 * eqChunkCountF fuel xs ys))
        (ys.drop (128 * eqChunkCountF fuel xs ys)) = lcp xs ys := by
  intro fuel
  induction fuel with
  | zero =>
    intro xs ys hlen
    have : xs = [] := List.eq_nil_of_length_eq_zero (by omega)
    subst this
    simp [eqChunkCountF]
  | succ fuel ih =>
    intro xs ys hlen
    rw [eqChunkCountF]
    by_cases h : 128 ≤ xs.length ∧ 128 ≤ ys.length ∧ xs.take 128 = ys.take 128
    · simp only [if_pos h]
      have hx : xs = xs.take 128 ++ xs.drop 128 := (List.take_append_drop 128 xs).symm
      have hy : ys = ys.take 128 ++ ys.drop 128 := (List.take_append_drop 128 ys).symm
      have hlen128 : (xs.take 128).length = 128 := by
        simp [List.length_take]; omega
      have hlcp : lcp xs ys = 128 + lcp (xs.drop 128) (ys.drop 128) := by
        conv_lhs => rw [hx, hy]
        rw [← h.2.2, lcp_append_same, hlen128]
      have hdx : ∀ m, xs.drop (128 * (m + 1)) = (xs.drop 128).drop (128 * m) := by
        intro m; rw [List.drop_drop]; ring_nf
      have hdy : ∀ m, ys.drop (128 * (m + 1)) = (ys.drop 128).drop (128 * m) := by
        intro m; rw [List.drop_drop]; ring_nf
      rw [hdx, hdy, hlcp]
      have := ih (xs.drop 128) (ys.drop 128) (by simp [List.length_drop]; omega)
      omega
    · simp only [if_neg h]
      simp

theorem commonPrefixLen_eq_lcp (xs ys : List Nat) :
    commonPrefixLen xs ys = lcp xs ys := by
  have h := eqChunk_lcp xs.length xs ys le_rfl
  simp only [commonPrefixLen]
  omega

theorem encStep_snd (lastKey k v : List Nat) : (encStep lastKey k v).2 = k := by
  simp only [encStep, commonPrefixLen_eq_lcp]
  rw [take_lcp_eq]
  exact List.take_append_drop _ _

/-- C10: after every `PrefixEncoder::write_next(key, value)` the encoder's
`last_key` buffer equals the key just written (a fresh encoder starts from
the empty buffer, see `encodeAll`), the chunked `common_prefix` computes the
true longest common prefix (it matches the byte-wise `lcp`, which is a
common prefix and maximal among common prefixes), and the emitted record is
the 6-byte header followed by exactly `key[prefix_len..]` and the value. -/
theorem encoder_lastkey_invariant :
    ∀ lastKey key value : List Nat,
      (encStep lastKey key value).2 = key ∧
      commonPrefixLen lastKey key = lcp lastKey key ∧
      lastKey.take (lcp lastKey key) = key.take (lcp lastKey key) ∧
      (∀ n, n ≤ lastKey.length → lastKey.take n = key.take n →
        n ≤ lcp lastKey key) ∧
      (encStep lastKey key value).1 =
        be16 key.length ++ be16 value.length ++ be16 (lcp lastKey key) ++
          key.drop (lcp lastKey key) ++ value := by
  intro lastKey key value
  refine ⟨encStep_snd _ _ _, commonPrefixLen_eq_lcp _ _, take_lcp_eq _ _,
    fun n hn ht => lcp_max _ _ n hn ht, ?_⟩
  simp only [encStep, commonPrefixLen_eq_lcp]

/-- Witness for C10 at a concrete input: the buffer update and the
maximality of the computed prefix length. -/
theorem encoder_lastkey_witness :
    (encStep [9] [9, 7] [3]).2 = [9, 7] ∧ 1 ≤ lcp [9] [9, 7] :=
  ⟨(encoder_lastkey_invariant [9] [9, 7] [3]).1,
   (encoder_lastkey_invariant [9] [9, 7] [3]).2.2.2.1 1 (by decide) (by decide)⟩

theorem land128_eq_zero (a : Nat) (h : a < 128) : a &&& 128 = 0 := by
  have h2 : (128 : Nat) = 2 ^ 7 := by norm_num
  rw [h2, Nat.and_two_pow, Nat.testBit_eq_false_of_lt (by omega)]
  simp

theorem readNext_record (lk k v tail : List Nat) (hk : k.length ≤ 0x7FFF)
    (hv : v.length ≤ 0xFFFF) :
    readNext lk ((encStep lk k v).1 ++ tail) = .ok (some ((k, v), k, tail)) := by
  have hp1 : lcp lk k ≤ lk.length := lcp_le_left lk k
  have hp2 : lcp lk k ≤ k.length := lcp_le_right lk k
  simp only [encStep, commonPrefixLen_eq_lcp, be16]
  simp only [List.cons_append, List.nil_append, List.append_assoc]
  rw [readNext]
  simp only [readNextF]
  have hb0 : k.length % 65536 / 256 &&& EXT_ENTRY = 0 := by
    simp only [EXT_ENTRY]
    exact land128_eq_zero _ (by omega)
  rw [if_neg (by simp [hb0])]
  have hkl : k.length % 65536 / 256 * 256 + k.length % 256 = k.length := by omega
  have hvl : v.length % 65536 / 256 * 256 + v.length % 256 = v.length := by omega
  have hpl : lcp lk k % 65536 / 256 * 256 + lcp lk k % 256 = lcp lk k := by omega
  rw [hkl, hvl, hpl]
  rw [if_neg (by omega)]
  have hdlen : (k.drop (lcp lk k)).length = k.length - lcp lk k := by
    simp [List.length_drop]
  rw [if_pos (by simp only [List.length_append, hdlen]; omega)]
  have hbase : ((lk.take k.length ++
      List.replicate (k.length - lk.length) 0).take (lcp lk k)) =
      k.take (lcp lk k) := by
    rw [List.take_append_of_le_length (by simp [List.length_take]; omega),
      List.take_take, Nat.min_eq_left (by omega), take_lcp_eq]
  rw [hbase]
  rw [List.take_left' hdlen, List.drop_left' hdlen]
  rw [if_pos (by simp), List.take_left, List.drop_left, List.take_append_drop]

theorem decodeLoopF_cons (f : Nat) (lk input k v lk2 rest : List Nat)
    (h : readNext lk input = .ok (some ((k, v), lk2, rest))) :
    decodeLoopF (f + 1) lk input =
      match decodeLoopF f lk2 rest with
      | .error e => .error e
      | .ok entries => .ok ((k, v) :: entries) := by
  rw [decodeLoopF, h]

theorem encList_length_ge : ∀ (S : List (List Nat × List Nat)) (lk : List Nat),
    S.length ≤ (encList lk S).length := by
  intro S
  induction S with
  | nil => simp [encList]
  | cons kv S ih =>
    intro lk
    obtain ⟨k, v⟩ := kv
    simp only [encList, List.length_append, List.length_cons]
    have h6 : 6 ≤ ((encStep lk k v).1).length := by
      simp [encStep, be16]
    have := ih (encStep lk k v).2
    omega

theorem decodeLoop_enc : ∀ (S : List (List Nat × List Nat)) (fuel : Nat)
    (lk : List Nat), S.length < fuel →
    (∀ kv ∈ S, kv.1.length ≤ 0x7FFF ∧ kv.2.length ≤ 0xFFFF) →
    decodeLoopF fuel lk (encList lk S) = .ok S := by
  intro S
  induction S with
  | nil =>
    intro fuel lk hf _
    obtain ⟨f, rfl⟩ : ∃ f, fuel = f + 1 := ⟨fuel - 1, by omega⟩
    simp [decodeLoopF, encList, readNext, readNextF]
  | cons kv S ih =>
    intro fuel lk hf hb
    obtain ⟨f, rfl⟩ : ∃ f, fuel = f + 1 := ⟨fuel - 1, by omega⟩
    obtain ⟨k, v⟩ := kv
    have hk := (hb (k, v) (List.mem_cons_self _ _)).1
    have hv := (hb (k, v) (List.mem_cons_self _ _)).2
    simp only [encList, encStep_snd]
    rw [decodeLoopF_cons f lk _ k v k (encList k S)
      (readNext_record lk k v _ hk hv)]
    rw [ih f k (by simpa using hf)
      (fun kv h => hb kv (List.mem_cons_of_mem _ h))]

/-- C1: the stream round-trip.  Encoding any record sequence whose keys are
at most `0x7FFF` bytes and values at most `0xFFFF` bytes with
`PrefixEncoder::write_next` and decoding the bytes with repeated
`PrefixDecoder::read_next` yields exactly the same records in order,
followed by a clean end of stream. -/
theorem stream_roundtrip (S : List (List Nat × List Nat))
    (hk : ∀ kv ∈ S, kv.1.length ≤ 0x7FFF)
    (hv : ∀ kv ∈ S, kv.2.length ≤ 0xFFFF) :
    decodeAll (encodeAll S) = .ok S := by
  have := encList_length_ge S []
  exact decodeLoop_enc S ((encList [] S).length + 1) [] (by omega)
    (fun kv h => ⟨hk kv h, hv kv h⟩)

/-- Witness for C1 at a concrete two-record sequence with a shared key
prefix. -/
theorem stream_roundtrip_witness :
    decodeAll (encodeAll [([10, 20], [7]), ([10, 21], [8, 9])]) =
      .ok [([10, 20], [7]), ([10, 21], [8, 9])] :=
  stream_roundtrip [([10, 20], [7]), ([10, 21], [8, 9])] (by decide) (by decide)

/-- C2: extension-skip is broken for `key_len` values whose low bits are not
covered by the (hexadecimal) `MAX_PATH_LEN` mask.  The stream below is
record A (`key_len = 0`, empty value), an optional-skippable extension
record with `key_len = 0x8008` and `value_len = 0` followed by its 8 body
bytes, then record B (empty key, value `[65]`).  The claim requires it to
decode as the stream without the extension record does — to `[A, B]` — but
the decoder computes `skip = (0x8008 & 0x0111…1111) + 0 = 0` instead of
`(0x8008 & 0x7FFF) + 0 = 8`, misparses the extension body as a record, and
then dies on a corrupt header.  The masking constant is a hex/binary slip:
its own comment says the maximum path length is 32 KiB. -/
theorem ext_skip_mask_bug :
    decodeAll ([0, 0, 0, 0, 0, 0] ++ [0x80, 0x08, 0, 0, 0x80, 0] ++
        [0, 0, 0, 0, 0, 0, 0, 0] ++ [0, 0, 0, 1, 0, 0, 65]) =
      .error .panicked ∧
    decodeAll ([0, 0, 0, 0, 0, 0] ++ [0, 0, 0, 1, 0, 0, 65]) =
      .ok [([], []), ([], [65])] ∧
    0x8008 &&& MAX_PATH_LEN = 0 ∧ 0x8008 % 0x8000 = 8 :=
  ⟨rfl, rfl, by decide, by decide⟩

/-- C3: the path round-trip fails.  `push_index(0)` writes the bare byte
`0x00`, which is `TAG_KEY`, so a zero index decodes as an empty key; and
`consume_index` rejects with `Eof` any index whose payload ends exactly at
the end of the buffer (`pos + byte_len >= buf.len()` instead of `>`), so a
trailing non-zero index fails to decode at all. -/
theorem path_roundtrip_bug :
    collectSegs (encPath [.index 0]) = .ok [.key []] ∧
    collectSegs (encPath [.index 5]) = .error .eof :=
  ⟨rfl, rfl⟩

/-- C5: flatten/merge does not round-trip integers that need more than one
payload byte: `300` flattens to zig-zag `600` stored big-endian as
`[0x02, 0x58]`, and the merger folds the payload bytes in reverse order,
reading `0x5802 = 22530`, zig-zag-decoded to `11265`. -/
theorem flatten_merge_bug :
    mergeAll (flattenDoc 100 (J.obj [([97], J.int 300)])) =
      some (J.obj [([97], J.int 11265)]) ∧
    J.obj [([97], J.int 11265)] ≠ J.obj [([97], J.int 300)] := by
  refine ⟨rfl, ?_⟩
  intro h
  simp only [J.obj.injEq, List.cons.injEq, Prod.mk.injEq, J.int.injEq] at h
  omega

/-- C6: the integer value codec does not invert.  `decode(encode(300)) =
11265` because the merger reads the big-endian payload little-endian; and
the flattener's zig-zag of `-1` is `2^64 - 3`, not the `1` produced by the
claimed formula `(n << 1) XOR (n >> 63)`. -/
theorem integer_codec_bug :
    intDecode (intEncode 300) = 11265 ∧ (11265 : Int) ≠ 300 ∧
    zigzagEnc (-1) = 2 ^ 64 - 3 ∧ specZigzag (-1) = 1 :=
  ⟨rfl, by decide, rfl, rfl⟩

/-- Counterexample to C7 as stated: a stream holding only 3 stray bytes —
a short read after at least one header byte — decodes as a clean empty
stream (`Ok(None)`), not as an I/O error. -/
theorem eof_counterexample : decodeAll [0, 0, 0] = .ok [] := rfl

/-- C7 amended: `read_next` returns `Ok(None)` exactly when the 6-byte
header read cannot be completed — zero up to five bytes left at a record
boundary are all treated as clean end-of-stream — while a short read inside
a record body (key tail or value) is reported as an I/O error. -/
theorem eof_amended :
    (∀ lk input : List Nat, input.length < 6 → readNext lk input = .ok none) ∧
    (∀ (lk rest : List Nat) (b0 b1 b2 b3 b4 b5 : Nat),
      b0 &&& EXT_ENTRY = 0 →
      b4 * 256 + b5 ≤ b0 * 256 + b1 →
      rest.length < (b0 * 256 + b1) - (b4 * 256 + b5) + (b2 * 256 + b3) →
      readNext lk (b0 :: b1 :: b2 :: b3 :: b4 :: b5 :: rest) =
        .error .ioEof) := by
  constructor
  · intro lk input h
    match input with
    | [] => rfl
    | [_] => rfl
    | [_, _] => rfl
    | [_, _, _] => rfl
    | [_, _, _, _] => rfl
    | [_, _, _, _, _] => rfl
    | _ :: _ :: _ :: _ :: _ :: _ :: _ => simp at h; omega
  · intro lk rest b0 b1 b2 b3 b4 b5 h0 hpk hshort
    rw [readNext]
    simp only [readNextF]
    rw [if_neg (by simp [h0])]
    rw [if_neg (by omega)]
    by_cases hc : b0 * 256 + b1 - (b4 * 256 + b5) ≤ rest.length
    · rw [if_pos hc, if_neg (by simp only [List.length_drop]; omega)]
    · rw [if_neg hc]

/-- Witness for C7 amended: a one-byte stream is clean end-of-stream, and a
complete header promising one value byte over an empty remainder is an I/O
error. -/
theorem eof_amended_witness :
    readNext [] [1] = .ok none ∧
    readNext [] [0, 0, 0, 1, 0, 0] = .error .ioEof :=
  ⟨eof_amended.1 [] [1] (by decide),
   eof_amended.2 [] [] 0 0 0 1 0 0 (by decide) (by decide) (by decide)⟩

/-- Counterexample to C8 as stated: the key bytes `[0x61, 0x0A, 0x62]`
contain the byte `0x0A ≤ 0x0F`, yet `push_key` accepts the key (it performs
no validation) and iteration yields it back as a valid `Key` segment. -/
theorem key_validation_counterexample :
    collectSegs (encPath [.key [97, 10, 98]]) = .ok [.key [97, 10, 98]] := rfl

theorem consumeKeyF_all : ∀ (t : List Nat) (buf : List Nat) (pos f : Nat),
    buf.drop pos = t → (∀ b ∈ t, MAX_INDEX_BYTES < b) → t.length ≤ f →
    consumeKeyF f buf pos = pos + t.length := by
  intro t
  induction t with
  | nil =>
    intro buf pos f hd _ _
    have hlen : buf.length ≤ pos := by
      have := congrArg List.length hd
      simp [List.length_drop] at this
      omega
    cases f with
    | zero => simp [consumeKeyF]
    | succ f => rw [consumeKeyF, if_neg (by omega)]; simp
  | cons b t ih =>
    intro buf pos f hd hb hf
    obtain ⟨f, rfl⟩ : ∃ g, f = g + 1 := ⟨f - 1, by simp at hf; omega⟩
    have hpos : pos < buf.length := by
      have := congrArg List.length hd
      simp [List.length_drop] at this
      omega
    have hget : buf.getD pos 0 = b := by
      have h1 : buf[pos]? = some b := by
        have := congrArg List.head? hd
        rwa [List.head?_drop] at this
      simp [List.getD_eq_getElem?_getD, h1]
    rw [consumeKeyF, if_pos ⟨hpos, by rw [hget]; exact hb b (List.mem_cons_self _ _)⟩]
    have hd2 : buf.drop (pos + 1) = t := by
      have := congrArg List.tail hd
      rwa [List.tail_drop] at this
    rw [ih buf (pos + 1) f hd2 (fun x hx => hb x (List.mem_cons_of_mem _ hx))
      (by simp at hf; omega)]
    simp only [List.length_cons]
    omega

/-- C8 amended: `push_key` performs no validation and keys are framed by
bytes `≤ 0x08` (`MAX_INDEX_BYTES`), not `≤ 0x0F`: any key whose bytes all
exceed `0x08` — including bytes in `0x09..=0x0F` — is pushed and yielded
back verbatim, as a valid `Key` segment when its bytes are UTF-8 and with
`INVALID_KEY` only otherwise. -/
theorem key_validation_amended (k : List Nat)
    (hb : ∀ b ∈ k, MAX_INDEX_BYTES < b) :
    collectSegs (encPath [.key k]) =
      if validUtf8 k then .ok [.key k] else .error .invalidKey := by
  have henc : encPath [.key k] = 0 :: k := by
    simp [encPath, encSeg, TAG_KEY]
  rw [henc]
  have hlen : (0 :: k : List Nat).length = k.length + 1 := by simp
  have hstop : consumeKeyEnd (0 :: k) 1 = 1 + k.length := by
    rw [consumeKeyEnd, hlen]
    exact consumeKeyF_all k (0 :: k) 1 (k.length + 1 - 1) (by simp) hb (by omega)
  have hnext : iterNext (0 :: k) 0 =
      if validUtf8 k then some (.ok (.key k), 1 + k.length)
      else some (.error .invalidKey, 1 + k.length) := by
    simp only [iterNext, hstop, TAG_KEY, List.getD_cons_zero, if_pos rfl,
      Nat.add_sub_cancel_left, Nat.zero_add, List.drop_succ_cons, List.drop_zero,
      List.take_length]
    simp
  have hlast : iterNext (0 :: k) (1 + k.length) = none := by
    rw [iterNext, if_pos (by simp; omega)]
  have hend : collectSegsGo (k.length + 1) (0 :: k) (1 + k.length) = .ok [] := by
    rw [collectSegsGo, hlast]
  rw [collectSegs, hlen]
  by_cases hv : validUtf8 k
  · rw [show k.length + 1 + 1 = (k.length + 1) + 1 from rfl, collectSegsGo,
      hnext, if_pos hv]
    simp [hend, hv]
  · rw [show k.length + 1 + 1 = (k.length + 1) + 1 from rfl, collectSegsGo,
      hnext, if_neg hv]
    simp [hv]

/-- Witness for C8 amended at the single-byte key `[0x64]`. -/
theorem key_validation_witness :
    collectSegs (encPath [.key [100]]) = .ok [.key [100]] := by
  have h := key_validation_amended [100] (by decide)
  simpa using h

theorem get?_append_some {p s : List PathSegment} {pos : Nat} {x : PathSegment}
    (h : p.get? pos = some x) : (p ++ s).get? pos = some x := by
  have hlt : pos < p.length := by
    by_contra hc
    push_neg at hc
    rw [List.get?_eq_none.mpr hc] at h
    exact Option.noConfusion h
  rw [List.get?_append hlt, h]

theorem matchInner_append : ∀ (ts : List JsonPathToken)
    (p s : List PathSegment) (pos : Nat),
    matchInner ts p pos = true → matchInner ts (p ++ s) pos = true := by
  intro ts
  induction ts with
  | nil => intro p s pos _; rfl
  | cons t ts ih =>
    intro p s pos h
    cases t with
    | root => exact ih p s 0 h
    | current => exact ih p s pos h
    | wildcard => exact ih p s (pos + 1) h
    | member k =>
      simp only [matchInner] at h ⊢
      cases hx : p.get? pos with
      | none => rw [hx] at h; exact Bool.noConfusion h
      | some seg =>
        rw [hx] at h
        cases seg with
        | key k2 =>
          rw [get?_append_some hx]
          simp only [Bool.and_eq_true] at h ⊢
          exact ⟨h.1, ih p s (pos + 1) h.2⟩
        | index n => exact Bool.noConfusion h
        | byteChunk a b => exact Bool.noConfusion h
    | index i =>
      simp only [matchInner] at h ⊢
      cases hx : p.get? pos with
      | none => rw [hx] at h; exact Bool.noConfusion h
      | some seg =>
        rw [hx] at h
        cases seg with
        | index n =>
          rw [get?_append_some hx]
          simp only [Bool.and_eq_true] at h ⊢
          exact ⟨h.1, ih p s (pos + 1) h.2⟩
        | key k2 => exact Bool.noConfusion h
        | byteChunk a b => exact Bool.noConfusion h
    | slice a b st =>
      simp only [matchInner] at h ⊢
      cases hx : p.get? pos with
      | none => rw [hx] at h; exact Bool.noConfusion h
      | some seg =>
        rw [hx] at h
        cases seg with
        | index n =>
          rw [get?_append_some hx]
          simp only [Bool.and_eq_true] at h ⊢
          exact ⟨h.1, ih p s (pos + 1) h.2⟩
        | key k2 => exact Bool.noConfusion h
        | byteChunk c d => exact Bool.noConfusion h
    | memberUnion ks =>
      simp only [matchInner] at h ⊢
      cases hx : p.get? pos with
      | none => rw [hx] at h; exact Bool.noConfusion h
      | some seg =>
        rw [hx] at h
        cases seg with
        | key k2 =>
          rw [get?_append_some hx]
          simp only [Bool.and_eq_true] at h ⊢
          exact ⟨h.1, ih p s (pos + 1) h.2⟩
        | index n => exact Bool.noConfusion h
        | byteChunk a b => exact Bool.noConfusion h
    | indexUnion is2 =>
      simp only [matchInner] at h ⊢
      cases hx : p.get? pos with
      | none => rw [hx] at h; exact Bool.noConfusion h
      | some seg =>
        rw [hx] at h
        cases seg with
        | index n =>
          rw [get?_append_some hx]
          simp only [Bool.and_eq_true] at h ⊢
          exact ⟨h.1, ih p s (pos + 1) h.2⟩
        | key k2 => exact Bool.noConfusion h
        | byteChunk a b => exact Bool.noConfusion h
    | recursiveDescend =>
      simp only [matchInner, Bool.or_eq_true, List.any_eq_true] at h ⊢
      rcases h with ⟨j, hj, hm⟩ | hm
      · left
        obtain ⟨i, hi, rfl⟩ := List.mem_range'.mp hj
        refine ⟨pos + 1 * i, List.mem_range'.mpr ⟨i, ?_, rfl⟩, ih p s _ hm⟩
        simp only [List.length_append]
        omega
      · right
        exact ih p s pos hm

/-- C9: matcher prefix-closure.  `match_path_inner` succeeds as soon as all
query tokens are consumed, regardless of trailing path segments; and
consequently a query that matches a path still matches every extension of
that path by further segments. -/
theorem matcher_prefix_closure :
    (∀ (path : List PathSegment) (pos : Nat), matchInner [] path pos = true) ∧
    (∀ (ts : List JsonPathToken) (p s : List PathSegment),
      matchInner ts p 0 = true → matchInner ts (p ++ s) 0 = true) :=
  ⟨fun _ _ => rfl, fun ts p s h => matchInner_append ts p s 0 h⟩

/-- Witness for C9: `$.a` matches the path `$.a.b` and still matches after
the path is extended by an index segment. -/
theorem matcher_prefix_closure_witness :
    matchInner [.root, .member [97]] [.key [97], .key [98]] 0 = true ∧
    matchInner [.root, .member [97]]
      ([.key [97], .key [98]] ++ [.index 3]) 0 = true :=
  ⟨by decide,
   matcher_prefix_closure.2 [.root, .member [97]] [.key [97], .key [98]]
     [.index 3] (by decide)⟩

theorem natCmp_self (x : Nat) : natCmp x x = .eq := by
  simp [natCmp]

theorem natCmp_add_right (a b c : Nat) : natCmp (a + c) (b + c) = natCmp a b := by
  simp only [natCmp]
  split_ifs <;> first | rfl | omega

theorem ord_match_then (o t : Ordering) :
    (match o with | .eq => t | o2 => o2) = o.then t := by
  cases o <;> rfl

theorem bytesOrd_append_same : ∀ (a c d : List Nat),
    bytesOrd (a ++ c) (a ++ d) = bytesOrd c d := by
  intro a
  induction a with
  | nil => intro c d; rfl
  | cons x a ih => intro c d; simp [bytesOrd, natCmp_self, ih]

theorem bytesOrd_append_of_ne : ∀ (xs ys c d : List Nat),
    xs.length = ys.length → bytesOrd xs ys ≠ .eq →
    bytesOrd (xs ++ c) (ys ++ d) = bytesOrd xs ys := by
  intro xs
  induction xs with
  | nil =>
    intro ys c d hlen hne
    have : ys = [] := List.eq_nil_of_length_eq_zero (by simpa using hlen.symm)
    subst this
    simp [bytesOrd] at hne
  | cons x xs ih =>
    intro ys c d hlen hne
    cases ys with
    | nil => simp at hlen
    | cons y ys =>
      simp only [List.cons_append, bytesOrd]
      cases ho : natCmp x y with
      | eq =>
        simp only [bytesOrd, ho] at hne
        exact ih ys c d (by simpa using hlen) hne
      | lt => rfl
      | gt => rfl

theorem bytesOrd_eq_of_eq : ∀ (xs ys : List Nat),
    xs.length = ys.length → bytesOrd xs ys = .eq → xs = ys := by
  intro xs
  induction xs with
  | nil =>
    intro ys hlen _
    exact (List.eq_nil_of_length_eq_zero (by simpa using hlen.symm)).symm
  | cons x xs ih =>
    intro ys hlen heq
    cases ys with
    | nil => simp at hlen
    | cons y ys =>
      simp only [bytesOrd] at heq
      cases ho : natCmp x y with
      | eq =>
        have hxy : x = y := by
          simp only [natCmp] at ho
          split_ifs at ho <;> omega
        rw [ho] at heq
        rw [hxy, ih ys (by simpa using hlen) heq]
      | lt => rw [ho] at heq; exact Ordering.noConfusion heq
      | gt => rw [ho] at heq; exact Ordering.noConfusion heq

theorem beBytes_length : ∀ (l n : Nat), (beBytes l n).length = l := by
  intro l
  induction l with
  | zero => intro n; rfl
  | succ l ih => intro n; simp [beBytes, ih]

theorem natCmp_lt_of_lt {a b : Nat} (h : a < b) : natCmp a b = .lt := by
  simp [natCmp, h]

theorem natCmp_gt_of_gt {a b : Nat} (h : b < a) : natCmp a b = .gt := by
  simp only [natCmp]
  split_ifs <;> first | rfl | omega

theorem sizeHint_pos {n : Nat} (h : n ≠ 0) : 1 ≤ sizeHint n := by
  simp only [sizeHint]
  split_ifs <;> omega

theorem sizeHint_le8 (n : Nat) : sizeHint n ≤ 8 := by
  simp only [sizeHint]
  split_ifs <;> omega

theorem sizeHint_bound {n : Nat} (h : n < 2 ^ 64) : n < 256 ^ sizeHint n := by
  simp only [sizeHint]
  split_ifs <;> norm_num <;> omega

theorem sizeHint_mono {m n : Nat} (h : m ≤ n) : sizeHint m ≤ sizeHint n := by
  simp only [sizeHint]
  split_ifs <;> omega

theorem beCompare : ∀ (l m n : Nat),
    bytesOrd (beBytes l m) (beBytes l n) =
      natCmp (m % 256 ^ l) (n % 256 ^ l) := by
  intro l
  induction l with
  | zero => intro m n; simp [beBytes, bytesOrd, Nat.mod_one, natCmp_self]
  | succ l ih =>
    intro m n
    have hA : 0 < 256 ^ l := Nat.pos_pow_of_pos l (by norm_num)
    have h1 : m % 256 ^ (l + 1) = m % 256 ^ l + 256 ^ l * (m / 256 ^ l % 256) := by
      rw [pow_succ]; exact Nat.mod_mul
    have h2 : n % 256 ^ (l + 1) = n % 256 ^ l + 256 ^ l * (n / 256 ^ l % 256) := by
      rw [pow_succ]; exact Nat.mod_mul
    have hr1 : m % 256 ^ l < 256 ^ l := Nat.mod_lt _ hA
    have hr2 : n % 256 ^ l < 256 ^ l := Nat.mod_lt _ hA
    simp only [beBytes, bytesOrd, ih, h1, h2]
    rcases Nat.lt_trichotomy (m / 256 ^ l % 256) (n / 256 ^ l % 256) with h | h | h
    · have hlt : m % 256 ^ l + 256 ^ l * (m / 256 ^ l % 256) <
          n % 256 ^ l + 256 ^ l * (n / 256 ^ l % 256) := by
        have hstep : 256 ^ l * (m / 256 ^ l % 256) + 256 ^ l ≤
            256 ^ l * (n / 256 ^ l % 256) := by
          have := Nat.mul_le_mul_left (256 ^ l) (Nat.succ_le_of_lt h)
          rw [Nat.mul_succ] at this
          exact this
        have h3 : m % 256 ^ l + 256 ^ l * (m / 256 ^ l % 256) <
            256 ^ l + 256 ^ l * (m / 256 ^ l % 256) := Nat.add_lt_add_right hr1 _
        have h4 : 256 ^ l + 256 ^ l * (m / 256 ^ l % 256) ≤
            256 ^ l * (n / 256 ^ l % 256) := by
          rw [Nat.add_comm]; exact hstep
        exact lt_of_lt_of_le h3 (le_trans h4 (Nat.le_add_left _ _))
      rw [show natCmp (m / 256 ^ l % 256) (n / 256 ^ l % 256) = .lt from by
        simp [natCmp, h]]
      rw [show natCmp (m % 256 ^ l + 256 ^ l * (m / 256 ^ l % 256))
          (n % 256 ^ l + 256 ^ l * (n / 256 ^ l % 256)) = .lt from by
        simp [natCmp, hlt]]
    · rw [h, natCmp_self, natCmp_add_right]
    · have hlt : n % 256 ^ l + 256 ^ l * (n / 256 ^ l % 256) <
          m % 256 ^ l + 256 ^ l * (m / 256 ^ l % 256) := by
        have hstep : 256 ^ l * (n / 256 ^ l % 256) + 256 ^ l ≤
            256 ^ l * (m / 256 ^ l % 256) := by
          have := Nat.mul_le_mul_left (256 ^ l) (Nat.succ_le_of_lt h)
          rw [Nat.mul_succ] at this
          exact this
        have h3 : n % 256 ^ l + 256 ^ l * (n / 256 ^ l % 256) <
            256 ^ l + 256 ^ l * (n / 256 ^ l % 256) := Nat.add_lt_add_right hr2 _
        have h4 : 256 ^ l + 256 ^ l * (n / 256 ^ l % 256) ≤
            256 ^ l * (m / 256 ^ l % 256) := by
          rw [Nat.add_comm]; exact hstep
        exact lt_of_lt_of_le h3 (le_trans h4 (Nat.le_add_left _ _))
      rw [show natCmp (m / 256 ^ l % 256) (n / 256 ^ l % 256) = .gt from by
        simp [natCmp]; omega]
      rw [show natCmp (m % 256 ^ l + 256 ^ l * (m / 256 ^ l % 256))
          (n % 256 ^ l + 256 ^ l * (n / 256 ^ l % 256)) = .gt from by
        simp [natCmp]; omega]

theorem wlpv_compare (m n : Nat) (ta tb : List Nat) (hm64 : m < 2 ^ 64)
    (hn64 : n < 2 ^ 64) :
    bytesOrd (writeLenPrefixedVarint m ++ ta) (writeLenPrefixedVarint n ++ tb) =
      (natCmp m n).then (bytesOrd ta tb) := by
  by_cases hm : m = 0 <;> by_cases hn : n = 0
  · subst hm; subst hn
    simp [writeLenPrefixedVarint, bytesOrd, natCmp_self, Ordering.then]
  · subst hm
    have h1 : 1 ≤ sizeHint n := sizeHint_pos hn
    rw [writeLenPrefixedVarint, if_pos rfl, writeLenPrefixedVarint, if_neg hn]
    simp only [List.cons_append, bytesOrd, ord_match_then, List.append_eq]
    rw [natCmp_lt_of_lt (by omega), natCmp_lt_of_lt (by omega)]
    simp [Ordering.then]
  · subst hn
    have h1 : 1 ≤ sizeHint m := sizeHint_pos hm
    rw [writeLenPrefixedVarint, if_neg hm, writeLenPrefixedVarint, if_pos rfl]
    simp only [List.cons_append, bytesOrd, ord_match_then, List.append_eq]
    rw [natCmp_gt_of_gt (by omega), natCmp_gt_of_gt (by omega)]
    simp [Ordering.then]
  · rw [writeLenPrefixedVarint, if_neg hm, writeLenPrefixedVarint, if_neg hn]
    simp only [List.cons_append, bytesOrd, ord_match_then, List.append_eq]
    rcases Nat.lt_trichotomy m n with h | h | h
    · have hsle : sizeHint m ≤ sizeHint n := sizeHint_mono (le_of_lt h)
      rcases lt_or_eq_of_le hsle with hs | hs
      · rw [natCmp_lt_of_lt hs, natCmp_lt_of_lt h]
        simp [Ordering.then]
      · rw [hs, natCmp_self, natCmp_lt_of_lt h]
        have hord : bytesOrd (beBytes (sizeHint n) m) (beBytes (sizeHint n) n) =
            .lt := by
          rw [beCompare, Nat.mod_eq_of_lt (hs ▸ sizeHint_bound hm64),
            Nat.mod_eq_of_lt (sizeHint_bound hn64), natCmp_lt_of_lt h]
        simp only [Ordering.then]
        rw [bytesOrd_append_of_ne _ _ _ _ (by rw [beBytes_length, beBytes_length])
          (by rw [hord]; exact fun hc => Ordering.noConfusion hc), hord]
    · subst h
      simp [Ordering.then, natCmp_self, bytesOrd_append_same]
    · have hsle : sizeHint n ≤ sizeHint m := sizeHint_mono (le_of_lt h)
      rcases lt_or_eq_of_le hsle with hs | hs
      · rw [natCmp_gt_of_gt hs, natCmp_gt_of_gt h]
        simp [Ordering.then]
      · rw [← hs, natCmp_self, natCmp_gt_of_gt h]
        have hord : bytesOrd (beBytes (sizeHint n) m) (beBytes (sizeHint n) n) =
            .gt := by
          rw [beCompare, Nat.mod_eq_of_lt (by rw [hs]; exact sizeHint_bound hm64),
            Nat.mod_eq_of_lt (sizeHint_bound hn64), natCmp_gt_of_gt h]
        simp only [Ordering.then]
        rw [bytesOrd_append_of_ne _ _ _ _ (by rw [beBytes_length, beBytes_length])
          (by rw [hord]; exact fun hc => Ordering.noConfusion hc), hord]

theorem keyCompare : ∀ (k k2 ta tb : List Nat),
    (∀ b ∈ k, 0x0F < b) → (∀ b ∈ k2, 0x0F < b) →
    (∀ b r, ta = b :: r → b ≤ 8) → (∀ b r, tb = b :: r → b ≤ 8) →
    bytesOrd (k ++ ta) (k2 ++ tb) = (bytesOrd k k2).then (bytesOrd ta tb) := by
  intro k
  induction k with
  | nil =>
    intro k2 ta tb _ hk2 hta _
    cases k2 with
    | nil => simp [bytesOrd, Ordering.then]
    | cons c k2 =>
      have hc : 0x0F < c := hk2 c (List.mem_cons_self _ _)
      simp only [List.nil_append, List.cons_append]
      cases ta with
      | nil => rfl
      | cons b r =>
        have hb : b ≤ 8 := hta b r rfl
        simp only [bytesOrd, natCmp_lt_of_lt (show b < c by omega)]
        rfl
  | cons a k ih =>
    intro k2 ta tb hk hk2 hta htb
    cases k2 with
    | nil =>
      have ha : 0x0F < a := hk a (List.mem_cons_self _ _)
      simp only [List.cons_append, List.nil_append]
      cases tb with
      | nil => rfl
      | cons b r =>
        have hb : b ≤ 8 := htb b r rfl
        simp only [bytesOrd, natCmp_gt_of_gt (show b < a by omega)]
        rfl
    | cons c k2 =>
      simp only [List.cons_append, bytesOrd]
      cases ho : natCmp a c with
      | eq =>
        exact ih k2 ta tb (fun b hb => hk b (List.mem_cons_of_mem _ hb))
          (fun b hb => hk2 b (List.mem_cons_of_mem _ hb)) hta htb
      | lt => rfl
      | gt => rfl

theorem encSeg_shape (s : PathSegment) :
    ∃ b r, encSeg s = b :: r ∧ b ≤ 8 := by
  cases s with
  | key k => exact ⟨0, k, rfl, by omega⟩
  | index n =>
    by_cases h : n = 0
    · subst h; exact ⟨0, [], rfl, by omega⟩
    · refine ⟨sizeHint n, beBytes (sizeHint n) n, ?_, sizeHint_le8 n⟩
      simp [encSeg, writeLenPrefixedVarint, h]
  | byteChunk a b =>
    exact ⟨2, writeLenPrefixedVarint a ++ be16 b, rfl, by omega⟩

theorem encPath_head (p : List PathSegment) :
    ∀ b r, encPath p = b :: r → b ≤ 8 := by
  intro b r h
  cases p with
  | nil => simp [encPath] at h
  | cons s rest =>
    obtain ⟨b2, r2, hs, hb⟩ := encSeg_shape s
    rw [encPath, hs] at h
    simp only [List.cons_append] at h
    injection h with h1 _
    omega

theorem wf_key_fields {k : List Nat} (h : wfSegB (.key k) = true) :
    k ≠ [] ∧ ∀ b ∈ k, 0x0F < b := by
  simp only [wfSegB, Bool.and_eq_true, Bool.not_eq_true', List.isEmpty_eq_false,
    List.all_eq_true, decide_eq_true_eq] at h
  exact h

theorem wf_index_field {n : Nat} (h : wfSegB (.index n) = true) : n < 2 ^ 64 := by
  simpa [wfSegB, decide_eq_true_eq] using h

theorem bytesOrd_key_tagled (a : Nat) (k2 e1 e2 : List Nat) (ha : 0x0F < a)
    (he2 : ∀ b r, e2 = b :: r → b ≤ 8) :
    bytesOrd ((a :: k2) ++ e1) e2 = .gt := by
  cases e2 with
  | nil => rfl
  | cons b r =>
    have hb : b ≤ 8 := he2 b r rfl
    simp only [List.cons_append, bytesOrd, natCmp_gt_of_gt (show b < a by omega)]

theorem bytesOrd_tagled_key (a : Nat) (k2 e1 e2 : List Nat) (ha : 0x0F < a)
    (he1 : ∀ b r, e1 = b :: r → b ≤ 8) :
    bytesOrd e1 ((a :: k2) ++ e2) = .lt := by
  cases e1 with
  | nil => rfl
  | cons b r =>
    have hb : b ≤ 8 := he1 b r rfl
    simp only [List.cons_append, bytesOrd, natCmp_lt_of_lt (show b < a by omega)]

/-- Amended C4: byte-lexicographic order of encoded paths equals document
traversal order, with the single correction the code forces at `Index 0`:
at a given position `Index 0` (encoded as the bare tag byte `0x00`, the key
tag, with empty payload) sorts before every key, while keys sort before
every positive index; keys compare by UTF-8 bytes, indices numerically, and
a parent precedes its descendants. -/
theorem path_order_amended : ∀ (p q : List PathSegment),
    wfPathB p = true → wfPathB q = true →
    bytesOrd (encPath p) (encPath q) = amendedPathOrd p q := by
  intro p
  induction p with
  | nil =>
    intro q _ _
    cases q with
    | nil => rfl
    | cons t q' =>
      obtain ⟨b, r, hsh, _⟩ := encSeg_shape t
      show bytesOrd [] (encSeg t ++ encPath q') = .lt
      rw [hsh]
      rfl
  | cons s p' ih =>
    intro q hp hq
    have hps : wfSegB s = true ∧ wfPathB p' = true := by
      simpa [wfPathB] using hp
    cases q with
    | nil =>
      obtain ⟨b, r, hsh, _⟩ := encSeg_shape s
      show bytesOrd (encSeg s ++ encPath p') [] = .gt
      rw [hsh]
      rfl
    | cons t q' =>
      have hqt : wfSegB t = true ∧ wfPathB q' = true := by
        simpa [wfPathB] using hq
      cases s with
      | byteChunk a b => simp [wfSegB] at hps
      | key k =>
        obtain ⟨hk0, hkb⟩ := wf_key_fields hps.1
        cases t with
        | byteChunk a b => simp [wfSegB] at hqt
        | key k2 =>
          obtain ⟨hk20, hk2b⟩ := wf_key_fields hqt.1
          show bytesOrd ((TAG_KEY :: k) ++ encPath p')
            ((TAG_KEY :: k2) ++ encPath q') = _
          simp only [TAG_KEY, List.cons_append, bytesOrd, ord_match_then,
            natCmp_self, List.append_eq, Ordering.then]
          rw [keyCompare k k2 _ _ hkb hk2b (encPath_head p') (encPath_head q'),
            ih q' hps.2 hqt.2]
          simp only [amendedPathOrd, pathOrdWith, amendedSegOrd, ord_match_then]
        | index n =>
          obtain ⟨a, k', rfl⟩ : ∃ a k', k = a :: k' := by
            cases k with
            | nil => exact absurd rfl hk0
            | cons a k' => exact ⟨a, k', rfl⟩
          have ha : 0x0F < a := hkb a (List.mem_cons_self _ _)
          by_cases hn : n = 0
          · subst hn
            show bytesOrd ((TAG_KEY :: a :: k') ++ encPath p')
              ([0] ++ encPath q') = _
            simp only [TAG_KEY, List.cons_append, List.nil_append, bytesOrd,
              ord_match_then, natCmp_self, List.append_eq, Ordering.then]
            rw [show (a :: (k' ++ encPath p')) = (a :: k') ++ encPath p' from rfl,
              bytesOrd_key_tagled a k' _ _ ha (encPath_head q')]
            simp [amendedPathOrd, pathOrdWith, amendedSegOrd]
          · rw [show encPath (.index n :: q') =
                (sizeHint n :: beBytes (sizeHint n) n) ++ encPath q' from by
              simp [encPath, encSeg, writeLenPrefixedVarint, hn]]
            show bytesOrd ((TAG_KEY :: a :: k') ++ encPath p') _ = _
            have h1 : 1 ≤ sizeHint n := sizeHint_pos hn
            simp only [TAG_KEY, List.cons_append, bytesOrd,
              natCmp_lt_of_lt (show 0 < sizeHint n by omega)]
            simp [amendedPathOrd, pathOrdWith, amendedSegOrd, hn]
      | index m =>
        have hm : m < 2 ^ 64 := wf_index_field hps.1
        cases t with
        | byteChunk a b => simp [wfSegB] at hqt
        | key k2 =>
          obtain ⟨hk20, hk2b⟩ := wf_key_fields hqt.1
          obtain ⟨a, k2', rfl⟩ : ∃ a k2', k2 = a :: k2' := by
            cases k2 with
            | nil => exact absurd rfl hk20
            | cons a k2' => exact ⟨a, k2', rfl⟩
          have ha : 0x0F < a := hk2b a (List.mem_cons_self _ _)
          by_cases hm0 : m = 0
          · subst hm0
            show bytesOrd ([0] ++ encPath p')
              ((TAG_KEY :: a :: k2') ++ encPath q') = _
            simp only [TAG_KEY, List.cons_append, List.nil_append, bytesOrd,
              ord_match_then, natCmp_self, List.append_eq, Ordering.then]
            rw [show (a :: (k2' ++ encPath q')) = (a :: k2') ++ encPath q' from rfl,
              bytesOrd_tagled_key a k2' _ _ ha (encPath_head p')]
            simp [amendedPathOrd, pathOrdWith, amendedSegOrd]
          · rw [show encPath (.index m :: p') =
                (sizeHint m :: beBytes (sizeHint m) m) ++ encPath p' from by
              simp [encPath, encSeg, writeLenPrefixedVarint, hm0]]
            show bytesOrd _ ((TAG_KEY :: a :: k2') ++ encPath q') = _
            have h1 : 1 ≤ sizeHint m := sizeHint_pos hm0
            simp only [TAG_KEY, List.cons_append, bytesOrd,
              natCmp_gt_of_gt (show 0 < sizeHint m by omega)]
            simp [amendedPathOrd, pathOrdWith, amendedSegOrd, hm0]
        | index n =>
          have hn : n < 2 ^ 64 := wf_index_field hqt.1
          show bytesOrd (writeLenPrefixedVarint m ++ encPath p')
            (writeLenPrefixedVarint n ++ encPath q') = _
          rw [wlpv_compare m n _ _ hm hn, ih q' hps.2 hqt.2]
          simp only [amendedPathOrd, pathOrdWith, amendedSegOrd, ord_match_then]

/-- Counterexample to C4 as stated: the well-formed paths `p = [Key "a"]` and
`q = [Index 0]` have `p` before `q` in the claimed traversal order (every
key before every index), yet `encode(q) = [0x00]` is a strict byte prefix of
`encode(p) = [0x00, 0x61]`, so `encode(p) > encode(q)`. -/
theorem order_counterexample :
    wfPathB [.key [97]] = true ∧ wfPathB [.index 0] = true ∧
    claimedPathOrd [.key [97]] [.index 0] = .lt ∧
    bytesOrd (encPath [.key [97]]) (encPath [.index 0]) = .gt := by
  refine ⟨by decide, by decide, rfl, rfl⟩

/-- Witness for the amended C4 at sibling indices under a common key. -/
theorem order_amended_witness :
    wfPathB [.key [20], .index 1] = true ∧
    wfPathB [.key [20], .index 2] = true ∧
    bytesOrd (encPath [.key [20], .index 1]) (encPath [.key [20], .index 2]) =
      amendedPathOrd [.key [20], .index 1] [.key [20], .index 2] :=
  ⟨by decide, by decide, path_order_amended _ _ (by decide) (by decide)⟩
